import Mathlib

/-!
Verification of the phrase-overlap plagiarism matcher
(`src/unnamed/part_001`: `normalizeText`, `findAllSimilarities`,
`findSimilarities`, `calculateOverallSimilarity`).

Strings are modelled as `List Char` (JavaScript strings are sequences of
UTF-16 code units; all inputs used in concrete statements are ASCII).
JavaScript numbers are modelled as `ℚ` for the matcher (whose arithmetic is
exact on the inputs considered) and as `ℝ` for the scorer, whose `Math.sqrt`
is modelled by `Real.sqrt` through a relational definition.
-/

namespace PlagiarismCheck

/-- Characters matched by the JavaScript regex class `\w` (ASCII letters,
digits and underscore), as used in `normalizeText`'s `[^\w\s]` strip;
stated over code points (`'a'-'z'`, `'A'-'Z'`, `'0'-'9'`, `'_'`). -/
def isWordChar (c : Char) : Bool :=
  (97 ≤ c.toNat && c.toNat ≤ 122) || (65 ≤ c.toNat && c.toNat ≤ 90) ||
  (48 ≤ c.toNat && c.toNat ≤ 57) || c.toNat = 95

/-- Characters matched by the JavaScript regex class `\s` (ECMAScript
WhiteSpace and LineTerminator productions), by code point. -/
def isJsWhitespace (c : Char) : Bool :=
  c.toNat = 32 || c.toNat = 9 || c.toNat = 10 || c.toNat = 13 ||
  c.toNat = 11 || c.toNat = 12 || c.toNat = 0xa0 || c.toNat = 0x1680 ||
  (0x2000 ≤ c.toNat && c.toNat ≤ 0x200a) || c.toNat = 0x2028 ||
  c.toNat = 0x2029 || c.toNat = 0x202f || c.toNat = 0x205f ||
  c.toNat = 0x3000 || c.toNat = 0xfeff

/-- A character surviving `.replace(/[^\w\s]/g, '')`. -/
def keepChar (c : Char) : Bool := isWordChar c || isJsWhitespace c

/-- `String.prototype.toLowerCase` restricted to ASCII (all concrete inputs
considered are ASCII; on them the JS function agrees with this map). -/
def jsToLower (c : Char) : Char :=
  if 65 ≤ c.toNat ∧ c.toNat ≤ 90 then Char.ofNat (c.toNat + 32) else c

/-- One pass of `.replace(/\s+/g, ' ')`: each maximal run of whitespace
becomes a single `' '`.  The boolean flag records whether the previously
consumed character belonged to a whitespace run. -/
def collapseAux : Bool → List Char → List Char
  | _, [] => []
  | prevWs, c :: cs =>
    if isJsWhitespace c then
      if prevWs then collapseAux true cs else ' ' :: collapseAux true cs
    else c :: collapseAux false cs

/-- `.replace(/\s+/g, ' ')` on a whole string. -/
def collapseWs (l : List Char) : List Char := collapseAux false l

/-- `String.prototype.trim`: strip leading and trailing whitespace. -/
def trimChars (l : List Char) : List Char :=
  ((l.dropWhile isJsWhitespace).reverse.dropWhile isJsWhitespace).reverse

/-- `normalizeText` from `findAllSimilarities` (src/unnamed/part_001,
lines 326-331): lowercase, strip `[^\w\s]`, collapse `\s+` to a single
space, trim. -/
def normalizeText (text : List Char) : List Char :=
  trimChars (collapseWs ((text.map jsToLower).filter keepChar))

/-- `String.prototype.split(' ')` (split on the literal one-character
separator; `"".split(' ')` is `[""]`). -/
def splitSpAux : List Char → List Char → List (List Char)
  | acc, [] => [acc.reverse]
  | acc, c :: cs =>
    if c = ' ' then acc.reverse :: splitSpAux [] cs else splitSpAux (c :: acc) cs

/-- `s.split(' ')`. -/
def splitSp (l : List Char) : List (List Char) := splitSpAux [] l

/-- `Array.prototype.join(' ')`. -/
def joinSp : List (List Char) → List Char
  | [] => []
  | [w] => w
  | w :: ws => w ++ ' ' :: joinSp ws

/-- First index at which `pat` occurs as a contiguous sublist, if any. -/
def indexOfAux (pat : List Char) : List Char → Option Nat
  | [] => if pat.isPrefixOf ([] : List Char) then some 0 else none
  | c :: t =>
    if pat.isPrefixOf (c :: t) then some 0 else (indexOfAux pat t).map (· + 1)

/-- `String.prototype.indexOf`: first occurrence or `-1`. -/
def jsIndexOf (hay pat : List Char) : Int :=
  match indexOfAux pat hay with
  | some n => (n : Int)
  | none => -1

/-- Number of word tokens the matcher derives from a text
(`normalizeText(text).split(' ').length`; note `"".split(' ') = [""]`,
so this is never `0`). -/
def wordCount (text : List Char) : Nat := (splitSp (normalizeText text)).length

/-- A covered token range `{start, end}` of the original word sequence
(`end` is a reserved word in Lean, hence `endIdx`). -/
structure Range where
  start : Nat
  endIdx : Nat
deriving DecidableEq, Repr

/-- One element of the `matches` array built by `findAllSimilarities`
(src/unnamed/part_001, lines 384-389). -/
structure Match where
  similarity : ℚ
  matchedText : List Char
  originalIndex : Int
  sourceIndex : Nat
deriving DecidableEq, Repr

/-- The mutable state of one `findAllSimilarities` run: the `matches`
array and the `coveredRanges` array, both appended to by `push`. -/
structure MatchState where
  «matches» : List Match
  covered : List Range
deriving DecidableEq, Repr

/-- `coveredRanges.some(range => i >= range.start && i <= range.end)`
(src/unnamed/part_001, line 346): the skip test checks only whether the
candidate START index lies in a recorded range. -/
def coveredContains (ranges : List Range) (i : Nat) : Bool :=
  ranges.any fun r => decide (r.start ≤ i) && decide (i ≤ r.endIdx)

/-- The forward-extension `while` loop (src/unnamed/part_001, lines
358-364).  Faithful to the source: the condition compares
`originalWords[originalEnd]` with `sourceWords[sourceEnd]`, where
`sourceEnd` is a CHARACTER offset into the normalized source
(`sourceIndex + phrase.length`), and bounds `sourceEnd` by the character
length of the normalized source.  `fuel` only bounds the recursion; every
call site passes `originalWords.length`, which the `originalEnd <
originalWords.length` conjunct makes sufficient for full execution. -/
def extendLoop (originalWords sourceWords : List (List Char)) (sourceLen : Nat) :
    Nat → List Char → Nat → Nat → List Char × Nat × Nat
  | 0, extendedMatch, originalEnd, sourceEnd => (extendedMatch, originalEnd, sourceEnd)
  | fuel + 1, extendedMatch, originalEnd, sourceEnd =>
    if originalEnd < originalWords.length ∧ sourceEnd < sourceLen ∧
        originalWords[originalEnd]? = sourceWords[sourceEnd]? then
      extendLoop originalWords sourceWords sourceLen fuel
        (extendedMatch ++ ' ' :: (originalWords[originalEnd]?.getD []))
        (originalEnd + 1) (sourceEnd + 1)
    else (extendedMatch, originalEnd, sourceEnd)

/-- The body of the inner `for` loop of `findAllSimilarities` for one
start index `i` (src/unnamed/part_001, lines 345-397): skip if `i` is
inside a covered range; otherwise search the `windowSize`-word phrase in
the normalized source, extend, score, recover the case-preserving
excerpt, and record the match and covered range when the score
exceeds 5. -/
def processCandidate (originalText normalizedSource : List Char)
    (originalWords sourceWords : List (List Char)) (windowSize i : Nat)
    (st : MatchState) : MatchState :=
  if coveredContains st.covered i then st
  else
    let phrase := joinSp ((originalWords.drop i).take windowSize)
    let sourceIndex : Int := jsIndexOf normalizedSource phrase
    if 0 ≤ sourceIndex then
      let si := sourceIndex.toNat
      let r := extendLoop originalWords sourceWords normalizedSource.length
        originalWords.length phrase (i + windowSize) (si + phrase.length)
      let extendedMatch := r.1
      let originalEnd := r.2.1
      let matchLength := (splitSp extendedMatch).length
      let similarityScore : ℚ := ((matchLength : ℚ) / (originalWords.length : ℚ)) * 100
      let originalPhraseIndex : Int :=
        jsIndexOf (originalText.map jsToLower) (extendedMatch.map jsToLower)
      let actualMatchedText :=
        if 0 ≤ originalPhraseIndex then
          (originalText.drop originalPhraseIndex.toNat).take (extendedMatch.length + 20)
        else extendedMatch
      if 5 < similarityScore then
        { «matches» := st.«matches» ++
            [Match.mk similarityScore actualMatchedText originalPhraseIndex si],
          covered := st.covered ++ [Range.mk i (originalEnd - 1)] }
      else st
    else st

/-- The inner `for (let i = 0; i <= originalWords.length - windowSize; i++)`
loop: the bound is fixed during the loop, so it is the fold of
`processCandidate` over `i = 0, …, originalWords.length - windowSize`
(an empty index list when `windowSize > originalWords.length`). -/
def scanStep (originalText normalizedSource : List Char)
    (originalWords sourceWords : List (List Char)) (windowSize : Nat)
    (st : MatchState) : MatchState :=
  (List.range (originalWords.length + 1 - windowSize)).foldl
    (fun s i => processCandidate originalText normalizedSource
      originalWords sourceWords windowSize i s) st

/-- The window sizes tried by the outer loop, in order:
`min(15, |originalWords|)` down to `4` (empty when that minimum is
below 4). -/
def windowSizes (maxWindow : Nat) : List Nat :=
  (List.range' 4 (maxWindow - 3)).reverse

/-- The complete double loop of `findAllSimilarities`
(src/unnamed/part_001, lines 343-399), returning the final `matches` and
`coveredRanges` arrays. -/
def findAllState (originalText sourceText : List Char) : MatchState :=
  let normalizedOriginal := normalizeText originalText
  let normalizedSource := normalizeText sourceText
  let originalWords := splitSp normalizedOriginal
  let sourceWords := splitSp normalizedSource
  (windowSizes (min 15 originalWords.length)).foldl
    (fun st ws => scanStep originalText normalizedSource
      originalWords sourceWords ws st)
    { «matches» := [], covered := [] }

/-- Stable insertion of a match into a list sorted descending by
`similarity` (model of `Array.prototype.sort` with comparator
`(a, b) => b.similarity - a.similarity`). -/
def insertByDesc (m : Match) : List Match → List Match
  | [] => [m]
  | x :: xs => if x.similarity < m.similarity then m :: x :: xs else x :: insertByDesc m xs

/-- `matches.sort((a, b) => b.similarity - a.similarity)`. -/
def sortByDesc : List Match → List Match
  | [] => []
  | x :: xs => insertByDesc x (sortByDesc xs)

/-- `coveredRanges.reduce((total, range) => total + (range.end - range.start + 1), 0)`
(src/unnamed/part_001, lines 402-404), over `ℤ` as in JS number
arithmetic. -/
def totalCoverage (ranges : List Range) : Int :=
  ranges.foldl (fun total r => total + ((r.endIdx : Int) - (r.start : Int) + 1)) 0

/-- Result record of `findAllSimilarities`. -/
structure SimResult where
  overallSimilarity : ℚ
  «matches» : List Match
deriving DecidableEq, Repr

/-- `findAllSimilarities` (src/unnamed/part_001, lines 321-415). -/
def findAllSimilarities (originalText sourceText : List Char) : SimResult :=
  let originalWords := splitSp (normalizeText originalText)
  let st := findAllState originalText sourceText
  { overallSimilarity :=
      min (((totalCoverage st.covered : ℚ) / (originalWords.length : ℚ)) * 100) 100,
    «matches» := sortByDesc st.«matches» }

/-- Result record of the legacy `findSimilarities`. -/
structure LegacyResult where
  similarity : ℚ
  matchedText : List Char
deriving DecidableEq, Repr

/-- The legacy wrapper `findSimilarities` (src/unnamed/part_001, lines
420-426). -/
def findSimilarities (originalText sourceText : List Char) : LegacyResult :=
  let results := findAllSimilarities originalText sourceText
  { similarity := results.overallSimilarity,
    matchedText :=
      match results.«matches» with
      | [] => []
      | m :: _ => m.matchedText }

/-- `PlagiarismMatch` (src/unnamed/part_001, lines 134-140). -/
structure PlagiarismMatch where
  source : List Char
  similarity : ℚ
  matchedText : List Char
  sourceText : List Char
  sourceUrl : Option (List Char)
deriving DecidableEq, Repr

/-- `matches.reduce((sum, match) => sum + match.similarity, 0)`. -/
def sumSimilarity («matches» : List PlagiarismMatch) : ℚ :=
  «matches».foldl (fun sum m => sum + m.similarity) 0

/-- `calculateOverallSimilarity` (src/unnamed/part_001, lines 431-442),
as a graph relation because `Math.sqrt` is modelled by the
noncomputable `Real.sqrt`: `calculateOverallSimilarity ms r` holds iff
the function returns `r` on input `ms`. -/
def calculateOverallSimilarity («matches» : List PlagiarismMatch) (r : ℝ) : Prop :=
  if «matches».length = 0 then r = 0
  else r = min (Real.sqrt ((sumSimilarity «matches» : ℝ) *
    ((min «matches».length 5 : ℕ) : ℝ)) * 0.8) 100

/-! The run invariant: every recorded range is well formed and starts
outside all previously recorded ranges, and every recorded match has a
similarity within bounds. -/

/-- `r₂` was recorded after `r₁` with its start index outside `r₁`. -/
def startNotIn (r₁ r₂ : Range) : Prop :=
  ¬(r₁.start ≤ r₂.start ∧ r₂.start ≤ r₁.endIdx)

/-- Invariant maintained by the matcher loops. -/
def StInv (st : MatchState) : Prop :=
  List.Pairwise startNotIn st.covered ∧
  (∀ r ∈ st.covered, r.start ≤ r.endIdx) ∧
  (∀ m ∈ st.«matches», 0 ≤ m.similarity ∧ m.similarity ≤ 100)

/-! A word-based rendering of the normalizer contract, used to give the
normalizer claims content independent of the pipeline in `normalizeText`:
split the lowercased input into maximal non-whitespace runs, filter each
run, drop runs that become empty, and join with single spaces. -/

/-- Maximal runs of non-whitespace characters; `acc` accumulates the
current run in reverse. -/
def wordsOfAux : List Char → List Char → List (List Char)
  | acc, [] => if acc.isEmpty then [] else [acc.reverse]
  | acc, c :: cs =>
    if isJsWhitespace c then
      if acc.isEmpty then wordsOfAux [] cs else acc.reverse :: wordsOfAux [] cs
    else wordsOfAux (c :: acc) cs

/-- The whitespace-delimited words of a character list. -/
def wordsOf (l : List Char) : List (List Char) := wordsOfAux [] l

/-- Whether the last character of `l` is whitespace. -/
def endsWs (l : List Char) : Bool :=
  match l.getLast? with
  | some c => isJsWhitespace c
  | none => false

/-! Definitions used only to state claims. -/

/-- Two covered ranges share at least one token index. -/
def rangesOverlap (r₁ r₂ : Range) : Bool :=
  decide (max r₁.start r₂.start ≤ min r₁.endIdx r₂.endIdx)

/-- ASCII alphanumeric characters (letters and digits, no underscore):
the character class named by claim C6's wording. -/
def isAlphanumChar (c : Char) : Bool :=
  (97 ≤ c.toNat && c.toNat ≤ 122) || (65 ≤ c.toNat && c.toNat ≤ 90) ||
  (48 ≤ c.toNat && c.toNat ≤ 57)

/-- The normalizer exactly as claim C6 states it: lowercase, remove every
character that is not alphanumeric or whitespace, collapse whitespace
runs, trim.  (Differs from `normalizeText` only in the character class:
the code's `\w` also keeps `_`.) -/
def specNormalizeClaimed (l : List Char) : List Char :=
  trimChars (collapseWs ((l.map jsToLower).filter
    (fun c => isAlphanumChar c || isJsWhitespace c)))

/-- The normalizer as amended (underscore added to the kept class), in an
independent word-based rendering: split the lowercased input on
whitespace, keep the `\w` characters of each word, drop words that become
empty, join with single spaces. -/
def specNormalizeAmended (l : List Char) : List Char :=
  joinSp (((wordsOf (l.map jsToLower)).map
    (fun w => w.filter isWordChar)).filter (fun w => !w.isEmpty))

/-- A `PlagiarismMatch` with similarity 20, for the aggregate scaling
scenario of claim C5. -/
def pm20 : PlagiarismMatch :=
  { source := [], similarity := 20, matchedText := [], sourceText := [],
    sourceUrl := none }

/-- The failing input for claim C2: sixteen distinct one-letter words,
compared against itself. -/
def sixteenWords : List Char := "a b c d e f g h i j k l m n o p".toList

/-! Basic facts about `splitSp` and `joinSp`. -/

theorem splitSpAux_ne_nil (l : List Char) : ∀ acc, splitSpAux acc l ≠ [] := by
  induction l with
  | nil => intro acc; simp [splitSpAux]
  | cons c t ih =>
    intro acc
    by_cases h : c = ' ' <;> simp [splitSpAux, h, ih]

theorem splitSp_ne_nil (l : List Char) : splitSp l ≠ [] := splitSpAux_ne_nil l []

theorem length_splitSp_pos (l : List Char) : 0 < (splitSp l).length :=
  List.length_pos.mpr (splitSp_ne_nil l)

theorem joinSp_cons (w : List Char) (ws : List (List Char)) (h : ws ≠ []) :
    joinSp (w :: ws) = w ++ ' ' :: joinSp ws := by
  cases ws with
  | nil => exact absurd rfl h
  | cons x xs => rfl

theorem joinSp_splitSpAux (l : List Char) :
    ∀ acc, joinSp (splitSpAux acc l) = acc.reverse ++ l := by
  induction l with
  | nil => intro acc; simp [splitSpAux, joinSp]
  | cons c t ih =>
    intro acc
    by_cases h : c = ' '
    · subst h
      rw [show splitSpAux acc (' ' :: t) = acc.reverse :: splitSpAux [] t by
        simp [splitSpAux]]
      rw [joinSp_cons _ _ (splitSpAux_ne_nil t []), ih]
      simp
    · rw [show splitSpAux acc (c :: t) = splitSpAux (c :: acc) t by
        simp [splitSpAux, h]]
      rw [ih]
      simp

theorem joinSp_splitSp (l : List Char) : joinSp (splitSp l) = l := by
  simpa using joinSp_splitSpAux l []

theorem splitSpAux_append_space (y : List Char) (x : List Char) :
    ∀ acc, splitSpAux acc (x ++ ' ' :: y) = splitSpAux acc x ++ splitSp y := by
  induction x with
  | nil => intro acc; simp [splitSpAux, splitSp]
  | cons c t ih =>
    intro acc
    by_cases h : c = ' ' <;> simp [splitSpAux, h, ih]

theorem splitSp_append_space (x y : List Char) :
    splitSp (x ++ ' ' :: y) = splitSp x ++ splitSp y :=
  splitSpAux_append_space y x []

theorem splitSpAux_no_space (l : List Char) :
    ∀ acc, ' ' ∉ l → splitSpAux acc l = [acc.reverse ++ l] := by
  induction l with
  | nil => intro acc _; simp [splitSpAux]
  | cons c t ih =>
    intro acc h
    have hc : c ≠ ' ' := fun hc => h (hc ▸ List.mem_cons_self c t)
    have ht : ' ' ∉ t := fun hm => h (List.mem_cons_of_mem c hm)
    rw [show splitSpAux acc (c :: t) = splitSpAux (c :: acc) t by
      simp [splitSpAux, hc]]
    rw [ih _ ht]
    simp

theorem splitSp_no_space (l : List Char) (h : ' ' ∉ l) : splitSp l = [l] := by
  simpa using splitSpAux_no_space l [] h

theorem mem_splitSpAux_no_space (l : List Char) :
    ∀ acc w, (' ' ∉ acc) → w ∈ splitSpAux acc l → ' ' ∉ w := by
  induction l with
  | nil =>
    intro acc w ha hw
    simp [splitSpAux] at hw
    subst hw
    simpa using ha
  | cons c t ih =>
    intro acc w ha hw
    by_cases h : c = ' '
    · subst h
      rw [show splitSpAux acc (' ' :: t) = acc.reverse :: splitSpAux [] t by
        simp [splitSpAux]] at hw
      rcases List.mem_cons.mp hw with hw1 | hw2
      · subst hw1; simpa using ha
      · exact ih [] w (by simp) hw2
    · rw [show splitSpAux acc (c :: t) = splitSpAux (c :: acc) t by
        simp [splitSpAux, h]] at hw
      refine ih (c :: acc) w ?_ hw
      simp only [List.mem_cons, not_or]
      exact ⟨fun hc => h hc.symm, ha⟩

theorem splitSp_mem_no_space (l w : List Char) (h : w ∈ splitSp l) : ' ' ∉ w :=
  mem_splitSpAux_no_space l [] w (by simp) h

theorem splitSp_joinSp (ws : List (List Char)) (hne : ws ≠ [])
    (hsp : ∀ w ∈ ws, ' ' ∉ w) : splitSp (joinSp ws) = ws := by
  induction ws with
  | nil => exact absurd rfl hne
  | cons w t ih =>
    cases t with
    | nil => simp [joinSp, splitSp_no_space w (hsp w (by simp))]
    | cons x xs =>
      rw [joinSp_cons w (x :: xs) (by simp), splitSp_append_space,
        splitSp_no_space w (hsp w (by simp)),
        ih (by simp) (fun v hv => hsp v (List.mem_cons_of_mem w hv))]
      simp

theorem length_splitSp_joinSp_append_word (x w : List Char) (h : ' ' ∉ w) :
    (splitSp (x ++ ' ' :: w)).length = (splitSp x).length + 1 := by
  rw [splitSp_append_space, splitSp_no_space w h]
  simp

/-! Facts about the extension loop. -/

theorem extendLoop_oe_ge (OW SW : List (List Char)) (L : Nat) :
    ∀ fuel ext oe se, oe ≤ (extendLoop OW SW L fuel ext oe se).2.1 := by
  intro fuel
  induction fuel with
  | zero => intro ext oe se; simp [extendLoop]
  | succ n ih =>
    intro ext oe se
    rw [extendLoop]
    split
    · exact le_trans (Nat.le_succ oe) (ih _ _ _)
    · simp

theorem extendLoop_oe_le (OW SW : List (List Char)) (L : Nat) :
    ∀ fuel ext oe se, oe ≤ OW.length →
      (extendLoop OW SW L fuel ext oe se).2.1 ≤ OW.length := by
  intro fuel
  induction fuel with
  | zero => intro ext oe se h; simpa [extendLoop] using h
  | succ n ih =>
    intro ext oe se h
    rw [extendLoop]
    split
    · next hcond => exact ih _ _ _ hcond.1
    · simpa using h

theorem extendLoop_split_length (OW SW : List (List Char)) (L : Nat)
    (hsp : ∀ w ∈ OW, ' ' ∉ w) :
    ∀ fuel ext oe se,
      (splitSp (extendLoop OW SW L fuel ext oe se).1).length + oe
        = (splitSp ext).length + (extendLoop OW SW L fuel ext oe se).2.1 := by
  intro fuel
  induction fuel with
  | zero => intro ext oe se; simp [extendLoop]
  | succ n ih =>
    intro ext oe se
    rw [extendLoop]
    split
    · next hcond =>
      have hoe : oe < OW.length := hcond.1
      have hget : OW[oe]? = some OW[oe] := List.getElem?_eq_getElem hoe
      have hw : ' ' ∉ (OW[oe]?.getD []) := by
        rw [hget]
        exact hsp _ (List.getElem_mem hoe)
      have := ih (ext ++ ' ' :: (OW[oe]?.getD [])) (oe + 1) (se + 1)
      rw [length_splitSp_joinSp_append_word ext _ hw] at this
      omega
    · simp

/-! Fold helpers. -/

theorem foldl_invariant {α β : Type} (f : β → α → β) (P : β → Prop) (l : List α) :
    ∀ b, P b → (∀ b' a, a ∈ l → P b' → P (f b' a)) → P (l.foldl f b) := by
  induction l with
  | nil => intro b hb _; simpa using hb
  | cons a t ih =>
    intro b hb hstep
    rw [List.foldl_cons]
    exact ih (f b a) (hstep b a (List.mem_cons_self a t) hb)
      (fun b' x hx => hstep b' x (List.mem_cons_of_mem a hx))

theorem foldl_fixed {α β : Type} (f : β → α → β) (l : List α) :
    ∀ b, (∀ a ∈ l, f b a = b) → l.foldl f b = b := by
  induction l with
  | nil => intro b _; simp
  | cons a t ih =>
    intro b h
    rw [List.foldl_cons, h a (List.mem_cons_self a t)]
    exact ih b (fun x hx => h x (List.mem_cons_of_mem a hx))

theorem stInv_empty : StInv { «matches» := [], covered := [] } := by
  refine ⟨List.Pairwise.nil, ?_, ?_⟩ <;> simp

theorem coveredContains_false {ranges : List Range} {i : Nat}
    (h : coveredContains ranges i = false) :
    ∀ r ∈ ranges, ¬(r.start ≤ i ∧ i ≤ r.endIdx) := by
  intro r hr
  have := List.any_eq_false.mp h r hr
  simpa using this

theorem processCandidate_inv (origText nSrc nO : List Char)
    (SW : List (List Char)) (ws i : Nat) (st : MatchState)
    (hw : 1 ≤ ws) (hi : i + ws ≤ (splitSp nO).length) (h : StInv st) :
    StInv (processCandidate origText nSrc (splitSp nO) SW ws i st) := by
  classical
  set OW := splitSp nO with hOW
  have hsp : ∀ w ∈ OW, ' ' ∉ w := fun w hw' => splitSp_mem_no_space nO w hw'
  have hlen : 0 < OW.length := length_splitSp_pos nO
  rw [processCandidate]
  by_cases hc : coveredContains st.covered i
  · rw [if_pos hc]; exact h
  · rw [if_neg hc]
    simp only []
    by_cases hs : (0 : Int) ≤ jsIndexOf nSrc (joinSp ((OW.drop i).take ws))
    · rw [if_pos hs]
      set phrase := joinSp ((OW.drop i).take ws) with hphrase
      set res := extendLoop OW SW nSrc.length OW.length phrase (i + ws)
        ((jsIndexOf nSrc phrase).toNat + phrase.length) with hres
      have hwindow : (OW.drop i).take ws = splitSp phrase := by
        rw [hphrase, splitSp_joinSp]
        · intro hnil
          have : ((OW.drop i).take ws).length = 0 := by rw [hnil]; rfl
          rw [List.length_take, List.length_drop] at this
          omega
        · intro w hw'
          exact hsp w (List.mem_of_mem_drop (List.mem_of_mem_take hw'))
      have hphl : (splitSp phrase).length = ws := by
        rw [← hwindow, List.length_take, List.length_drop]
        omega
      have hoe_ge : i + ws ≤ res.2.1 := extendLoop_oe_ge OW SW nSrc.length _ _ _ _
      have hoe_le : res.2.1 ≤ OW.length :=
        extendLoop_oe_le OW SW nSrc.length _ _ _ _ hi
      have hml : (splitSp res.1).length + (i + ws) = ws + res.2.1 := by
        have := extendLoop_split_length OW SW nSrc.length hsp OW.length phrase
          (i + ws) ((jsIndexOf nSrc phrase).toNat + phrase.length)
        rw [hphl] at this
        exact this
      have hml_le : (splitSp res.1).length ≤ OW.length := by omega
      by_cases h5 : (5 : ℚ) < ((((splitSp res.1).length : ℚ)) / ((OW.length : ℚ))) * 100
      · rw [if_pos h5]
        obtain ⟨hpw, hwf, hsim⟩ := h
        refine ⟨?_, ?_, ?_⟩
        · rw [List.pairwise_append]
          refine ⟨hpw, by simp [startNotIn], ?_⟩
          intro r₁ hr₁ r₂ hr₂
          simp only [List.mem_singleton] at hr₂
          subst hr₂
          simpa [startNotIn] using
            coveredContains_false (by simpa using hc) r₁ hr₁
        · intro r hr
          rcases List.mem_append.mp hr with hr | hr
          · exact hwf r hr
          · simp only [List.mem_singleton] at hr
            subst hr
            simp only []
            omega
        · intro m hm
          rcases List.mem_append.mp hm with hm | hm
          · exact hsim m hm
          · simp only [List.mem_singleton] at hm
            subst hm
            simp only []
            constructor
            · linarith
            · have hq : ((splitSp res.1).length : ℚ) ≤ (OW.length : ℚ) := by
                exact_mod_cast hml_le
              have hqpos : (0 : ℚ) < (OW.length : ℚ) := by exact_mod_cast hlen
              have hdiv : (((splitSp res.1).length : ℚ)) / ((OW.length : ℚ)) ≤ 1 :=
                div_le_one_of_le₀ hq (le_of_lt hqpos)
              calc (((splitSp res.1).length : ℚ)) / ((OW.length : ℚ)) * 100
                  ≤ 1 * 100 := by
                    exact mul_le_mul_of_nonneg_right hdiv (by norm_num)
                _ = 100 := by norm_num
      · rw [if_neg h5]; exact h
    · rw [if_neg hs]; exact h

theorem wordsOfAux_ne_nil (m : List Char) :
    ∀ a, a ≠ [] → wordsOfAux a m ≠ [] := by
  induction m with
  | nil =>
    intro a ha
    simp [wordsOfAux, List.isEmpty_iff, ha]
  | cons c t ih =>
    intro a ha
    by_cases h : isJsWhitespace c
    · have : a.isEmpty = false := by simp [List.isEmpty_iff, ha]
      simp [wordsOfAux, h, this]
    · rw [show wordsOfAux a (c :: t) = wordsOfAux (c :: a) t by
        simp [wordsOfAux, h]]
      exact ih (c :: a) (by simp)

theorem wordsOfAux_wf (m : List Char) :
    ∀ a, (∀ c ∈ a, isJsWhitespace c = false) →
      ∀ w ∈ wordsOfAux a m, w ≠ [] ∧ ∀ c ∈ w, isJsWhitespace c = false := by
  induction m with
  | nil =>
    intro a ha w hw
    by_cases he : a.isEmpty
    · simp [wordsOfAux, he] at hw
    · simp only [wordsOfAux, if_neg he, List.mem_singleton] at hw
      subst hw
      refine ⟨by simpa [List.isEmpty_iff] using he, ?_⟩
      intro c hc
      exact ha c (List.mem_reverse.mp hc)
  | cons c t ih =>
    intro a ha w hw
    by_cases h : isJsWhitespace c
    · by_cases he : a.isEmpty
      · rw [show wordsOfAux a (c :: t) = wordsOfAux [] t by
          simp [wordsOfAux, h, he]] at hw
        exact ih [] (by simp) w hw
      · rw [show wordsOfAux a (c :: t) = a.reverse :: wordsOfAux [] t by
          simp [wordsOfAux, h, he]] at hw
        rcases List.mem_cons.mp hw with hw1 | hw2
        · subst hw1
          refine ⟨by simpa [List.isEmpty_iff] using he, ?_⟩
          intro x hx
          exact ha x (List.mem_reverse.mp hx)
        · exact ih [] (by simp) w hw2
    · rw [show wordsOfAux a (c :: t) = wordsOfAux (c :: a) t by
        simp [wordsOfAux, h]] at hw
      refine ih (c :: a) ?_ w hw
      intro x hx
      rcases List.mem_cons.mp hx with hx1 | hx2
      · subst hx1; simpa using h
      · exact ha x hx2

theorem wordsOfAux_drop_ws (m : List Char) :
    wordsOfAux [] m = wordsOfAux [] (m.dropWhile isJsWhitespace) := by
  induction m with
  | nil => rfl
  | cons c t ih =>
    by_cases h : isJsWhitespace c
    · rw [show wordsOfAux [] (c :: t) = wordsOfAux [] t by
        simp [wordsOfAux, h]]
      rw [ih, List.dropWhile_cons_of_pos (by simpa using h)]
    · rw [List.dropWhile_cons_of_neg (by simpa using h)]

theorem wordsOfAux_append (w : List Char) (hw : ∀ c ∈ w, isJsWhitespace c = false) :
    ∀ (a m : List Char), wordsOfAux a (w ++ m) = wordsOfAux (w.reverse ++ a) m := by
  induction w with
  | nil => intro a m; simp
  | cons c t ih =>
    intro a m
    have hc : isJsWhitespace c = false := hw c (by simp)
    rw [List.cons_append,
      show wordsOfAux a (c :: (t ++ m)) = wordsOfAux (c :: a) (t ++ m) by
        simp [wordsOfAux, hc],
      ih (fun x hx => hw x (List.mem_cons_of_mem c hx)) (c :: a) m]
    simp

theorem mem_wordsOfAux_subset (m : List Char) :
    ∀ a w c, w ∈ wordsOfAux a m → c ∈ w → c ∈ a ∨ c ∈ m := by
  induction m with
  | nil =>
    intro a w c hw hc
    by_cases he : a.isEmpty
    · simp [wordsOfAux, he] at hw
    · simp only [wordsOfAux, if_neg he, List.mem_singleton] at hw
      subst hw
      exact Or.inl (List.mem_reverse.mp hc)
  | cons x t ih =>
    intro a w c hw hc
    by_cases h : isJsWhitespace x
    · by_cases he : a.isEmpty
      · rw [show wordsOfAux a (x :: t) = wordsOfAux [] t by
          simp [wordsOfAux, h, he]] at hw
        rcases ih [] w c hw hc with h1 | h2
        · simp at h1
        · exact Or.inr (List.mem_cons_of_mem x h2)
      · rw [show wordsOfAux a (x :: t) = a.reverse :: wordsOfAux [] t by
          simp [wordsOfAux, h, he]] at hw
        rcases List.mem_cons.mp hw with hw1 | hw2
        · subst hw1
          exact Or.inl (List.mem_reverse.mp hc)
        · rcases ih [] w c hw2 hc with h1 | h2
          · simp at h1
          · exact Or.inr (List.mem_cons_of_mem x h2)
    · rw [show wordsOfAux a (x :: t) = wordsOfAux (x :: a) t by
        simp [wordsOfAux, h]] at hw
      rcases ih (x :: a) w c hw hc with h1 | h2
      · rcases List.mem_cons.mp h1 with h3 | h4
        · exact Or.inr (by rw [h3]; exact List.mem_cons_self x t)
        · exact Or.inl h4
      · exact Or.inr (List.mem_cons_of_mem x h2)

theorem mem_joinSp (W : List (List Char)) :
    ∀ c ∈ joinSp W, c = ' ' ∨ ∃ w ∈ W, c ∈ w := by
  induction W with
  | nil => intro c hc; simp [joinSp] at hc
  | cons w t ih =>
    intro c hc
    cases t with
    | nil =>
      rw [show joinSp [w] = w from rfl] at hc
      exact Or.inr ⟨w, by simp, hc⟩
    | cons x xs =>
      rw [joinSp_cons w (x :: xs) (by simp)] at hc
      rcases List.mem_append.mp hc with h1 | h2
      · exact Or.inr ⟨w, by simp, h1⟩
      · rcases List.mem_cons.mp h2 with h3 | h4
        · exact Or.inl h3
        · rcases ih c h4 with h5 | ⟨v, hv, hcv⟩
          · exact Or.inl h5
          · exact Or.inr ⟨v, List.mem_cons_of_mem w hv, hcv⟩

theorem collapseAux_true_eq (t : List Char) :
    collapseAux true t = collapseAux false (t.dropWhile isJsWhitespace) := by
  induction t with
  | nil => rfl
  | cons c u ih =>
    by_cases h : isJsWhitespace c
    · rw [show collapseAux true (c :: u) = collapseAux true u by
        simp [collapseAux, h], ih,
        List.dropWhile_cons_of_pos (by simpa using h)]
    · rw [List.dropWhile_cons_of_neg (by simpa using h)]
      simp [collapseAux, h]

theorem head_dropWhile_ws (t : List Char) :
    ∀ c, (t.dropWhile isJsWhitespace).head? = some c → isJsWhitespace c = false := by
  induction t with
  | nil => intro c hc; simp at hc
  | cons x u ih =>
    intro c hc
    by_cases h : isJsWhitespace x
    · rw [List.dropWhile_cons_of_pos (by simpa using h)] at hc
      exact ih c hc
    · rw [List.dropWhile_cons_of_neg (by simpa using h)] at hc
      simp only [List.head?_cons, Option.some.injEq] at hc
      subst hc
      simpa using h

theorem dropWhile_collapseAux_head (u : List Char)
    (h : ∀ c, u.head? = some c → isJsWhitespace c = false) :
    (collapseAux false u).dropWhile isJsWhitespace = collapseAux false u := by
  cases u with
  | nil => rfl
  | cons c t =>
    have hc : isJsWhitespace c = false := h c rfl
    rw [show collapseAux false (c :: t) = c :: collapseAux false t by
      simp [collapseAux, hc]]
    rw [List.dropWhile_cons_of_neg (by simp [hc])]

theorem dropWhile_collapseWs (m : List Char) :
    (collapseWs m).dropWhile isJsWhitespace
      = collapseWs (m.dropWhile isJsWhitespace) := by
  cases m with
  | nil => rfl
  | cons c t =>
    by_cases h : isJsWhitespace c
    · rw [show collapseWs (c :: t) = ' ' :: collapseAux true t by
        simp [collapseWs, collapseAux, h]]
      rw [List.dropWhile_cons_of_pos (by simp [isJsWhitespace]),
        collapseAux_true_eq, List.dropWhile_cons_of_pos (by simpa using h)]
      exact dropWhile_collapseAux_head _ (head_dropWhile_ws t)
    · rw [List.dropWhile_cons_of_neg (by simpa using h)]
      exact dropWhile_collapseAux_head _ (by intro c' hc'; simp only
        [List.head?_cons, Option.some.injEq] at hc'; subst hc'; simpa using h)

theorem endsWs_cons_of_not_ws (c : Char) (t : List Char)
    (h : isJsWhitespace c = false) : endsWs (c :: t) = endsWs t := by
  cases t with
  | nil => simp [endsWs, h]
  | cons x u => simp [endsWs, List.getLast?_cons_cons]

theorem endsWs_cons_of_ne (c : Char) (t : List Char) (h : t ≠ []) :
    endsWs (c :: t) = endsWs t := by
  cases t with
  | nil => exact absurd rfl h
  | cons x u => simp [endsWs, List.getLast?_cons_cons]

theorem endsWs_all_ws (c : Char) (t : List Char) (hc : isJsWhitespace c = true)
    (ht : ∀ x ∈ t, isJsWhitespace x = true) : endsWs (c :: t) = true := by
  induction t generalizing c with
  | nil => simpa [endsWs]
  | cons x u ih =>
    rw [endsWs_cons_of_ne c (x :: u) (by simp)]
    exact ih x (ht x (by simp)) (fun y hy => ht y (List.mem_cons_of_mem x hy))

theorem endsWs_dropWhile (t : List Char)
    (h : t.dropWhile isJsWhitespace ≠ []) :
    endsWs t = endsWs (t.dropWhile isJsWhitespace) := by
  induction t with
  | nil => simp at h
  | cons c u ih =>
    by_cases hc : isJsWhitespace c
    · rw [List.dropWhile_cons_of_pos (by simpa using hc)] at h ⊢
      have hu : u ≠ [] := by
        intro hu; rw [hu] at h; simp at h
      rw [endsWs_cons_of_ne c u hu]
      exact ih h
    · rw [List.dropWhile_cons_of_neg (by simpa using hc)]

theorem getLast?_joinSp (W : List (List Char)) (hne : W ≠ [])
    (hwf : ∀ w ∈ W, w ≠ [] ∧ ∀ c ∈ w, isJsWhitespace c = false) :
    ∃ c, (joinSp W).getLast? = some c ∧ isJsWhitespace c = false := by
  induction W with
  | nil => exact absurd rfl hne
  | cons w t ih =>
    cases t with
    | nil =>
      obtain ⟨hw, hcs⟩ := hwf w (by simp)
      refine ⟨(joinSp [w]).getLast hw, ?_, ?_⟩
      · exact List.getLast?_eq_getLast _ hw
      · exact hcs _ (List.getLast_mem hw)
    | cons x xs =>
      obtain ⟨c, hc, hws⟩ := ih (by simp)
        (fun v hv => hwf v (List.mem_cons_of_mem w hv))
      have hjne : joinSp (x :: xs) ≠ [] := by
        intro hnil; rw [hnil] at hc; simp at hc
      refine ⟨c, ?_, hws⟩
      have hlast : (' ' :: joinSp (x :: xs)).getLast? = some c := by
        cases hj : joinSp (x :: xs) with
        | nil => exact absurd hj hjne
        | cons y ys =>
          rw [hj] at hc
          simpa [List.getLast?_cons_cons] using hc
      rw [joinSp_cons w (x :: xs) (by simp), List.getLast?_append, hlast]
      simp

theorem dropWhile_eq_self_of_head {l : List Char} {c : Char}
    (h : l.head? = some c) (hc : isJsWhitespace c = false) :
    l.dropWhile isJsWhitespace = l := by
  cases l with
  | nil => simp at h
  | cons x t =>
    simp only [List.head?_cons, Option.some.injEq] at h
    subst h
    exact List.dropWhile_cons_of_neg (by simp [hc])

theorem collapse_words_main : ∀ (n : Nat) (m : List Char), m.length ≤ n →
    ∀ a, a ≠ [] → (∀ c ∈ a, isJsWhitespace c = false) →
    a.reverse ++ collapseAux false m
      = joinSp (wordsOfAux a m) ++ (if endsWs m then [' '] else []) := by
  intro n
  induction n with
  | zero =>
    intro m hm a ha _
    have : m = [] := List.length_eq_zero.mp (Nat.le_zero.mp hm)
    subst this
    have he : a.isEmpty = false := by simp [List.isEmpty_iff, ha]
    simp [collapseAux, wordsOfAux, he, endsWs, joinSp]
  | succ k ih =>
    intro m hm a ha hnws
    cases m with
    | nil =>
      have he : a.isEmpty = false := by simp [List.isEmpty_iff, ha]
      simp [collapseAux, wordsOfAux, he, endsWs, joinSp]
    | cons c t =>
      simp only [List.length_cons, Nat.succ_le_succ_iff] at hm
      by_cases h : isJsWhitespace c
      · -- a whitespace character ends the current word
        have he : a.isEmpty = false := by simp [List.isEmpty_iff, ha]
        rw [show collapseAux false (c :: t) = ' ' :: collapseAux true t by
          simp [collapseAux, h]]
        rw [collapseAux_true_eq]
        rw [show wordsOfAux a (c :: t) = a.reverse :: wordsOfAux [] t by
          simp [wordsOfAux, h, he]]
        rw [wordsOfAux_drop_ws t]
        rcases ht' : t.dropWhile isJsWhitespace with _ | ⟨d, t''⟩
        · -- rest of the input is all whitespace
          have hall : ∀ x ∈ t, isJsWhitespace x = true := by
            intro x hx
            have := List.dropWhile_eq_nil_iff.mp ht'
            simpa using this x hx
          rw [endsWs_all_ws c t (by simpa using h) hall]
          simp [collapseAux, wordsOfAux, joinSp]
        · have hd : isJsWhitespace d = false := by
            refine head_dropWhile_ws t d ?_
            rw [ht']; rfl
          have hlen'' : t''.length ≤ k := by
            have h1 : (t.dropWhile isJsWhitespace).length ≤ t.length :=
              (List.dropWhile_suffix isJsWhitespace).length_le
            rw [ht'] at h1
            simp only [List.length_cons] at h1
            omega
          have hmain := ih t'' hlen'' [d] (by simp) (by
            intro x hx
            rcases List.mem_cons.mp hx with h1 | h2
            · subst h1; exact hd
            · simp at h2)
          simp only [List.reverse_cons, List.reverse_nil, List.nil_append,
            List.singleton_append] at hmain
          rw [show collapseAux false (d :: t'') = d :: collapseAux false t'' by
            simp [collapseAux, hd]]
          rw [show wordsOfAux ([] : List Char) (d :: t'') = wordsOfAux [d] t'' by
            simp [wordsOfAux, hd]]
          have hwne : wordsOfAux [d] t'' ≠ [] := wordsOfAux_ne_nil t'' [d] (by simp)
          rw [joinSp_cons _ _ hwne]
          have hends : endsWs (c :: t) = endsWs t'' := by
            have htne : t ≠ [] := by
              intro hnil
              rw [hnil] at ht'
              simp at ht'
            rw [endsWs_cons_of_ne c t htne,
              endsWs_dropWhile t (by rw [ht']; simp), ht',
              endsWs_cons_of_not_ws d t'' hd]
          rw [hends, hmain]
          simp
      · -- a non-whitespace character extends the current word
        rw [show collapseAux false (c :: t) = c :: collapseAux false t by
          simp [collapseAux, h]]
        rw [show wordsOfAux a (c :: t) = wordsOfAux (c :: a) t by
          simp [wordsOfAux, h]]
        rw [endsWs_cons_of_not_ws c t (by simpa using h)]
        have hmain := ih t hm (c :: a) (by simp) (by
          intro x hx
          rcases List.mem_cons.mp hx with h1 | h2
          · subst h1; simpa using h
          · exact hnws x h2)
        rw [← hmain]
        simp

theorem trim_collapse_eq_joinSp_words (M : List Char) :
    trimChars (collapseWs M) = joinSp (wordsOf M) := by
  rw [trimChars, dropWhile_collapseWs, wordsOf, wordsOfAux_drop_ws]
  rcases hM : M.dropWhile isJsWhitespace with _ | ⟨d, t''⟩
  · simp [collapseWs, collapseAux, wordsOfAux, joinSp]
  · have hd : isJsWhitespace d = false := by
      refine head_dropWhile_ws M d ?_
      rw [hM]; rfl
    have hmain := collapse_words_main t''.length t'' le_rfl [d] (by simp) (by
      intro x hx
      rcases List.mem_cons.mp hx with h1 | h2
      · subst h1; exact hd
      · simp at h2)
    simp only [List.reverse_cons, List.reverse_nil, List.nil_append,
      List.singleton_append] at hmain
    rw [show collapseWs (d :: t'') = d :: collapseAux false t'' by
      simp [collapseWs, collapseAux, hd]]
    rw [show wordsOfAux ([] : List Char) (d :: t'') = wordsOfAux [d] t'' by
      simp [wordsOfAux, hd]]
    rw [hmain]
    have hwne : wordsOfAux [d] t'' ≠ [] := wordsOfAux_ne_nil t'' [d] (by simp)
    have hwf : ∀ w ∈ wordsOfAux [d] t'', w ≠ [] ∧
        ∀ c ∈ w, isJsWhitespace c = false := by
      refine wordsOfAux_wf t'' [d] ?_
      intro x hx
      rcases List.mem_cons.mp hx with h1 | h2
      · subst h1; exact hd
      · simp at h2
    obtain ⟨c, hc, hcs⟩ := getLast?_joinSp _ hwne hwf
    have hrev : (joinSp (wordsOfAux [d] t'')).reverse.head? = some c := by
      rw [List.head?_reverse]; exact hc
    by_cases hew : endsWs t''
    · rw [if_pos hew]
      rw [List.reverse_append]
      rw [show ([' '] : List Char).reverse = [' '] from rfl]
      rw [List.singleton_append,
        List.dropWhile_cons_of_pos (by simp [isJsWhitespace]),
        dropWhile_eq_self_of_head hrev hcs, List.reverse_reverse]
    · rw [if_neg hew]
      rw [List.append_nil, dropWhile_eq_self_of_head hrev hcs,
        List.reverse_reverse]

theorem wordChar_not_ws (c : Char) (h : isWordChar c = true) :
    isJsWhitespace c = false := by
  simp only [isWordChar, Bool.or_eq_true, Bool.and_eq_true, decide_eq_true_eq] at h
  simp only [isJsWhitespace, Bool.or_eq_false_iff, Bool.and_eq_false_iff,
    decide_eq_false_iff_not]
  omega

theorem ws_keepChar (c : Char) (h : isJsWhitespace c = true) : keepChar c = true := by
  simp [keepChar, h]

theorem wordsOfAux_filter (m : List Char) :
    ∀ a, wordsOfAux (a.filter isWordChar) (m.filter keepChar)
      = ((wordsOfAux a m).map (fun w => w.filter isWordChar)).filter
          (fun w => !w.isEmpty) := by
  induction m with
  | nil =>
    intro a
    simp only [List.filter_nil]
    by_cases he : a.isEmpty
    · have ha : a = [] := List.isEmpty_iff.mp he
      subst ha
      simp [wordsOfAux]
    · have hane : a ≠ [] := by simpa [List.isEmpty_iff] using he
      rw [show wordsOfAux a ([] : List Char) = [a.reverse] by
        simp [wordsOfAux, List.isEmpty_iff, hane]]
      simp only [List.map_cons, List.map_nil, List.filter_reverse]
      by_cases hf : (a.filter isWordChar).isEmpty
      · rw [show wordsOfAux (a.filter isWordChar) ([] : List Char) = [] by
          simp [wordsOfAux, hf]]
        have h2 : ((a.filter isWordChar).reverse).isEmpty = true := by
          simpa using hf
        simp [List.filter_cons, h2]
      · rw [show wordsOfAux (a.filter isWordChar) ([] : List Char)
            = [(a.filter isWordChar).reverse] by simp [wordsOfAux, hf]]
        have h2 : ((a.filter isWordChar).reverse).isEmpty = false := by
          simpa using (Bool.of_not_eq_true hf)
        simp [List.filter_cons, h2]
  | cons c t ih =>
    intro a
    by_cases h : isJsWhitespace c
    · have hk : keepChar c = true := ws_keepChar c (by simpa using h)
      rw [show (c :: t).filter keepChar = c :: t.filter keepChar by
        simp [List.filter_cons, hk]]
      by_cases he : a.isEmpty
      · have ha : a = [] := List.isEmpty_iff.mp he
        subst ha
        rw [show wordsOfAux (List.filter isWordChar []) (c :: t.filter keepChar)
            = wordsOfAux [] (t.filter keepChar) by simp [wordsOfAux, h]]
        rw [show wordsOfAux ([] : List Char) (c :: t) = wordsOfAux [] t by
          simp [wordsOfAux, h]]
        simpa using ih []
      · have hane : a ≠ [] := by simpa [List.isEmpty_iff] using he
        rw [show wordsOfAux a (c :: t) = a.reverse :: wordsOfAux [] t by
          simp [wordsOfAux, h, List.isEmpty_iff, hane]]
        simp only [List.map_cons, List.filter_reverse]
        by_cases hf : (a.filter isWordChar).isEmpty
        · rw [show wordsOfAux (a.filter isWordChar) (c :: t.filter keepChar)
              = wordsOfAux [] (t.filter keepChar) by simp [wordsOfAux, h, hf]]
          have h2 : ((a.filter isWordChar).reverse).isEmpty = true := by
            simpa using hf
          rw [show ((a.filter isWordChar).reverse
                :: (wordsOfAux [] t).map (fun w => w.filter isWordChar)).filter
                  (fun w => !w.isEmpty)
              = ((wordsOfAux [] t).map (fun w => w.filter isWordChar)).filter
                  (fun w => !w.isEmpty) by simp [List.filter_cons, h2]]
          simpa using ih []
        · rw [show wordsOfAux (a.filter isWordChar) (c :: t.filter keepChar)
              = (a.filter isWordChar).reverse :: wordsOfAux [] (t.filter keepChar) by
            simp [wordsOfAux, h, hf]]
          have h2 : ((a.filter isWordChar).reverse).isEmpty = false := by
            simpa using (Bool.of_not_eq_true hf)
          rw [show ((a.filter isWordChar).reverse
                :: (wordsOfAux [] t).map (fun w => w.filter isWordChar)).filter
                  (fun w => !w.isEmpty)
              = (a.filter isWordChar).reverse
                :: ((wordsOfAux [] t).map (fun w => w.filter isWordChar)).filter
                  (fun w => !w.isEmpty) by simp [List.filter_cons, h2]]
          have ht := ih []
          simp only [List.filter_nil] at ht
          rw [ht]
    · rw [show wordsOfAux a (c :: t) = wordsOfAux (c :: a) t by
        simp [wordsOfAux, h]]
      by_cases hw : isWordChar c
      · have hk : keepChar c = true := by simp [keepChar, hw]
        rw [show (c :: t).filter keepChar = c :: t.filter keepChar by
          simp [List.filter_cons, hk]]
        rw [show wordsOfAux (a.filter isWordChar) (c :: t.filter keepChar)
            = wordsOfAux (c :: a.filter isWordChar) (t.filter keepChar) by
          simp [wordsOfAux, h]]
        rw [show c :: a.filter isWordChar = (c :: a).filter isWordChar by
          simp [List.filter_cons, hw]]
        exact ih (c :: a)
      · have hk : keepChar c = false := by
          simp only [keepChar, Bool.or_eq_false_iff]
          exact ⟨by simpa using hw, by simpa using h⟩
        rw [show (c :: t).filter keepChar = t.filter keepChar by
          simp [List.filter_cons, hk]]
        rw [show a.filter isWordChar = (c :: a).filter isWordChar by
          simp [List.filter_cons, hw]]
        exact ih (c :: a)

/-- `normalizeText` in word form: the non-empty per-word `\w`-filtrations
of the whitespace-delimited words of the lowercased input, joined by
single spaces. -/
theorem normalizeText_eq_words (l : List Char) :
    normalizeText l
      = joinSp (((wordsOf (l.map jsToLower)).map
          (fun w => w.filter isWordChar)).filter (fun w => !w.isEmpty)) := by
  rw [normalizeText, trim_collapse_eq_joinSp_words, wordsOf, wordsOf]
  have h := wordsOfAux_filter (l.map jsToLower) []
  simp only [List.filter_nil] at h
  rw [h]

theorem toNat_ofNat_valid (n : Nat) (h : Nat.isValidChar n) :
    (Char.ofNat n).toNat = n := by
  simp only [Char.ofNat, dif_pos h, Char.ofNatAux, Char.toNat]
  simp [UInt32.toNat]

theorem jsToLower_fix (c : Char) : jsToLower (jsToLower c) = jsToLower c := by
  unfold jsToLower
  by_cases h : 65 ≤ c.toNat ∧ c.toNat ≤ 90
  · rw [if_pos h]
    have hv : Nat.isValidChar (c.toNat + 32) := Or.inl (by omega)
    have ht : (Char.ofNat (c.toNat + 32)).toNat = c.toNat + 32 :=
      toNat_ofNat_valid _ hv
    rw [if_neg (by omega)]
  · rw [if_neg h, if_neg h]

theorem jsToLower_space : jsToLower ' ' = ' ' := by decide

theorem ws_space : isJsWhitespace ' ' = true := by decide

theorem wordsOf_joinSp (W : List (List Char))
    (hwf : ∀ w ∈ W, w ≠ [] ∧ ∀ c ∈ w, isJsWhitespace c = false) :
    wordsOf (joinSp W) = W := by
  induction W with
  | nil => rfl
  | cons w t ih =>
    obtain ⟨hwne, hwc⟩ := hwf w (List.mem_cons_self w t)
    cases t with
    | nil =>
      rw [show joinSp [w] = w from rfl, wordsOf]
      have happ := wordsOfAux_append w hwc [] []
      rw [List.append_nil] at happ
      rw [happ]
      have hne : (w.reverse ++ []).isEmpty = false := by
        simp [List.isEmpty_iff, hwne]
      simp [wordsOfAux, hne, hwne]
    | cons x xs =>
      rw [joinSp_cons w (x :: xs) (by simp), wordsOf]
      have happ := wordsOfAux_append w hwc [] (' ' :: joinSp (x :: xs))
      rw [happ]
      have hne : (w.reverse ++ []).isEmpty = false := by
        simp [List.isEmpty_iff, hwne]
      rw [show wordsOfAux (w.reverse ++ []) (' ' :: joinSp (x :: xs))
          = (w.reverse ++ []).reverse :: wordsOfAux [] (joinSp (x :: xs)) by
        simp [wordsOfAux, ws_space, hne, hwne]]
      rw [show wordsOfAux ([] : List Char) (joinSp (x :: xs))
          = wordsOf (joinSp (x :: xs)) from rfl]
      rw [ih (fun v hv => hwf v (List.mem_cons_of_mem w hv))]
      simp

theorem map_fix_eq_self {f : Char → Char} (l : List Char)
    (h : ∀ c ∈ l, f c = c) : l.map f = l := by
  induction l with
  | nil => rfl
  | cons c t ih =>
    rw [List.map_cons, h c (List.mem_cons_self c t),
      ih (fun x hx => h x (List.mem_cons_of_mem c hx))]

/-- Helper for the idempotence claim: re-normalizing a normalized text
changes nothing. -/
theorem normalizeText_idem (l : List Char) :
    normalizeText (normalizeText l) = normalizeText l := by
  rw [normalizeText_eq_words l]
  set W := ((wordsOf (l.map jsToLower)).map
    (fun w => w.filter isWordChar)).filter (fun w => !w.isEmpty) with hW
  have hWwf : ∀ w ∈ W, w ≠ [] ∧ ∀ c ∈ w, isWordChar c = true := by
    intro w hw
    rw [hW] at hw
    obtain ⟨hmem, hne⟩ := List.mem_filter.mp hw
    obtain ⟨w₀, hw₀, hweq⟩ := List.mem_map.mp hmem
    constructor
    · intro hnil
      rw [hnil] at hne
      simp at hne
    · intro c hc
      rw [← hweq] at hc
      exact List.of_mem_filter hc
  have hWws : ∀ w ∈ W, w ≠ [] ∧ ∀ c ∈ w, isJsWhitespace c = false := by
    intro w hw
    obtain ⟨h1, h2⟩ := hWwf w hw
    exact ⟨h1, fun c hc => wordChar_not_ws c (h2 c hc)⟩
  have hfix : ∀ c ∈ joinSp W, jsToLower c = c := by
    intro c hc
    rcases mem_joinSp W c hc with hsp | ⟨w, hwW, hcw⟩
    · rw [hsp]; exact jsToLower_space
    · rw [hW] at hwW
      obtain ⟨hmem, _⟩ := List.mem_filter.mp hwW
      obtain ⟨w₀, hw₀, hweq⟩ := List.mem_map.mp hmem
      rw [← hweq] at hcw
      have hcw₀ : c ∈ w₀ := List.mem_of_mem_filter hcw
      have hcl : c ∈ l.map jsToLower := by
        rcases mem_wordsOfAux_subset (l.map jsToLower) [] w₀ c hw₀ hcw₀ with h | h
        · simp at h
        · exact h
      obtain ⟨c₀, _, hc₀⟩ := List.mem_map.mp hcl
      rw [← hc₀]
      exact jsToLower_fix c₀
  rw [normalizeText_eq_words (joinSp W)]
  rw [map_fix_eq_self (joinSp W) hfix]
  rw [wordsOf_joinSp W hWws]
  have hmapAll : ∀ (V : List (List Char)),
      (∀ w ∈ V, ∀ c ∈ w, isWordChar c = true) →
      V.map (fun w => w.filter isWordChar) = V := by
    intro V hV
    induction V with
    | nil => rfl
    | cons w t ihV =>
      rw [List.map_cons,
        List.filter_eq_self.mpr (hV w (List.mem_cons_self w t)),
        ihV (fun v hv => hV v (List.mem_cons_of_mem w hv))]
  rw [hmapAll W (fun w hw => (hWwf w hw).2)]
  rw [List.filter_eq_self.mpr (fun w hw => by
    simp [List.isEmpty_iff, (hWwf w hw).1])]

/-! Sorting facts. -/

theorem mem_insertByDesc (m x : Match) (l : List Match) :
    x ∈ insertByDesc m l ↔ x = m ∨ x ∈ l := by
  induction l with
  | nil => simp [insertByDesc]
  | cons y t ih =>
    by_cases h : y.similarity < m.similarity
    · simp only [insertByDesc, if_pos h, List.mem_cons]
      try tauto
    · simp only [insertByDesc, if_neg h, List.mem_cons, ih]
      try tauto

theorem mem_sortByDesc (x : Match) (l : List Match) :
    x ∈ sortByDesc l ↔ x ∈ l := by
  induction l with
  | nil => simp [sortByDesc]
  | cons y t ih =>
    simp [sortByDesc, mem_insertByDesc, ih]

theorem pairwise_insertByDesc (m : Match) (l : List Match)
    (h : List.Pairwise (fun a b => b.similarity ≤ a.similarity) l) :
    List.Pairwise (fun a b => b.similarity ≤ a.similarity) (insertByDesc m l) := by
  induction l with
  | nil => simp [insertByDesc]
  | cons y t ih =>
    rw [List.pairwise_cons] at h
    obtain ⟨hy, ht⟩ := h
    by_cases hlt : y.similarity < m.similarity
    · rw [show insertByDesc m (y :: t) = m :: y :: t by simp [insertByDesc, hlt]]
      refine List.Pairwise.cons ?_ (List.Pairwise.cons hy ht)
      intro z hz
      rcases List.mem_cons.mp hz with h1 | h2
      · subst h1; exact le_of_lt hlt
      · exact le_trans (hy z h2) (le_of_lt hlt)
    · rw [show insertByDesc m (y :: t) = y :: insertByDesc m t by
        simp [insertByDesc, hlt]]
      refine List.Pairwise.cons ?_ (ih ht)
      intro z hz
      rcases (mem_insertByDesc m z t).mp hz with h1 | h2
      · subst h1; exact le_of_not_lt hlt
      · exact hy z h2

theorem pairwise_sortByDesc (l : List Match) :
    List.Pairwise (fun a b => b.similarity ≤ a.similarity) (sortByDesc l) := by
  induction l with
  | nil => exact List.Pairwise.nil
  | cons y t ih => exact pairwise_insertByDesc y (sortByDesc t) ih

/-! Invariant propagation through the loops. -/

theorem stInv_scanStep (origText nSrc nO : List Char) (SW : List (List Char))
    (ws : Nat) (hw : 1 ≤ ws) (st : MatchState) (h : StInv st) :
    StInv (scanStep origText nSrc (splitSp nO) SW ws st) := by
  rw [scanStep]
  refine foldl_invariant _ StInv _ st h ?_
  intro st' i hi hst'
  have hi' : i < (splitSp nO).length + 1 - ws := List.mem_range.mp hi
  exact processCandidate_inv origText nSrc nO SW ws i st' hw (by omega) hst'

theorem mem_windowSizes {ws m : Nat} (h : ws ∈ windowSizes m) :
    4 ≤ ws ∧ ws ≤ m := by
  rw [windowSizes, List.mem_reverse] at h
  have := List.mem_range'_1.mp h
  omega

theorem stInv_findAllState (o s : List Char) : StInv (findAllState o s) := by
  rw [findAllState]
  refine foldl_invariant _ StInv _ _ stInv_empty ?_
  intro st ws hws hst
  exact stInv_scanStep o (normalizeText s) (normalizeText o)
    (splitSp (normalizeText s)) ws (by have := mem_windowSizes hws; omega) st hst

theorem foldl_cov_nonneg : ∀ (l : List Range) (acc : Int), 0 ≤ acc →
    (∀ r ∈ l, r.start ≤ r.endIdx) →
    0 ≤ l.foldl (fun total r => total + ((r.endIdx : Int) - (r.start : Int) + 1)) acc := by
  intro l
  induction l with
  | nil => intro acc h _; simpa using h
  | cons r t ih =>
    intro acc hacc hall
    rw [List.foldl_cons]
    refine ih _ ?_ (fun x hx => hall x (List.mem_cons_of_mem r hx))
    have := hall r (List.mem_cons_self r t)
    have : (r.start : Int) ≤ (r.endIdx : Int) := by exact_mod_cast this
    omega

theorem totalCoverage_nonneg (l : List Range)
    (h : ∀ r ∈ l, r.start ≤ r.endIdx) : 0 ≤ totalCoverage l :=
  foldl_cov_nonneg l 0 le_rfl h

/-! Evaluation helpers for the concrete-run claims. -/

theorem processCandidate_skip (origText nSrc : List Char)
    (OW SW : List (List Char)) (ws i : Nat) (st : MatchState)
    (h : coveredContains st.covered i = true) :
    processCandidate origText nSrc OW SW ws i st = st := by
  rw [processCandidate, if_pos h]

theorem processCandidate_nomatch (origText nSrc : List Char)
    (OW SW : List (List Char)) (ws i : Nat) (st : MatchState)
    (h : jsIndexOf nSrc (joinSp ((OW.drop i).take ws)) < 0) :
    processCandidate origText nSrc OW SW ws i st = st := by
  rw [processCandidate]
  by_cases hc : coveredContains st.covered i
  · rw [if_pos hc]
  · rw [if_neg hc]
    simp only []
    rw [if_neg (not_le.mpr h)]

theorem extendLoop_at_end (OW SW : List (List Char)) (L : Nat)
    (fuel : Nat) (ext : List Char) (se : Nat) :
    extendLoop OW SW L fuel ext OW.length se = (ext, OW.length, se) := by
  cases fuel with
  | zero => rfl
  | succ n =>
    rw [extendLoop, if_neg]
    intro hcond
    exact absurd hcond.1 (lt_irrefl _)

theorem scanStep_all_covered (origText nSrc : List Char)
    (OW SW : List (List Char)) (ws : Nat) (hw : 1 ≤ ws) (st : MatchState)
    (hcov : ∀ i, i < OW.length → coveredContains st.covered i = true) :
    scanStep origText nSrc OW SW ws st = st := by
  rw [scanStep]
  refine foldl_fixed _ _ st ?_
  intro i hi
  have hi' : i < OW.length + 1 - ws := List.mem_range.mp hi
  exact processCandidate_skip origText nSrc OW SW ws i st (hcov i (by omega))

theorem joinSp_two_ne_nil (ws : List (List Char)) (h : 2 ≤ ws.length) :
    joinSp ws ≠ [] := by
  cases ws with
  | nil => simp at h
  | cons w t =>
    cases t with
    | nil => simp at h
    | cons x xs =>
      rw [joinSp_cons w (x :: xs) (by simp)]
      simp

theorem jsIndexOf_nil_neg (pat : List Char) (h : pat ≠ []) :
    jsIndexOf [] pat < 0 := by
  cases pat with
  | nil => exact absurd rfl h
  | cons c t =>
    rw [jsIndexOf, show indexOfAux (c :: t) ([] : List Char) = none by
      simp [indexOfAux, List.isPrefixOf]]
    norm_num

theorem scanStep_empty_source (origText : List Char)
    (OW SW : List (List Char)) (ws : Nat) (hw : 2 ≤ ws) (st : MatchState) :
    scanStep origText [] OW SW ws st = st := by
  rw [scanStep]
  refine foldl_fixed _ _ st ?_
  intro i hi
  have hi' : i < OW.length + 1 - ws := List.mem_range.mp hi
  have hwin : ((OW.drop i).take ws).length = ws := by
    rw [List.length_take, List.length_drop]
    omega
  refine processCandidate_nomatch origText [] OW SW ws i st ?_
  exact jsIndexOf_nil_neg _ (joinSp_two_ne_nil _ (by omega))

theorem windowSizes_eq_nil {m : Nat} (h : m < 4) : windowSizes m = [] := by
  rw [windowSizes, show m - 3 = 0 by omega]
  rfl

theorem indexOfAux_self (l : List Char) : indexOfAux l l = some 0 := by
  cases l with
  | nil => simp [indexOfAux, List.isPrefixOf]
  | cons c t =>
    rw [indexOfAux, if_pos]
    exact List.isPrefixOf_iff_prefix.mpr (List.prefix_refl _)

theorem jsIndexOf_self (l : List Char) : jsIndexOf l l = 0 := by
  rw [jsIndexOf, indexOfAux_self]
  rfl

theorem windowSizes_cons {n : Nat} (h : 4 ≤ n) :
    windowSizes n = n :: windowSizes (n - 1) := by
  rw [windowSizes, windowSizes, show n - 3 = (n - 4) + 1 by omega,
    List.range'_concat, show n - 1 - 3 = n - 4 by omega,
    show 4 + 1 * (n - 4) = n by omega, List.reverse_append]
  rfl

theorem coveredContains_nil (i : Nat) : coveredContains [] i = false := rfl

/-- An exact-duplicate run with between 4 and 15 tokens: the whole-text
window is found at source offset 0, scores 100, covers every token, and
every later candidate is skipped. -/
theorem findAllState_self (o : List Char)
    (h4 : 4 ≤ (splitSp (normalizeText o)).length)
    (h15 : (splitSp (normalizeText o)).length ≤ 15) :
    ∃ mt oi, findAllState o o
      = { «matches» := [Match.mk 100 mt oi 0],
          covered := [Range.mk 0 ((splitSp (normalizeText o)).length - 1)] } := by
  refine ⟨(if 0 ≤ jsIndexOf (o.map jsToLower) ((normalizeText o).map jsToLower)
      then (o.drop (jsIndexOf (o.map jsToLower)
        ((normalizeText o).map jsToLower)).toNat).take ((normalizeText o).length + 20)
      else normalizeText o),
    jsIndexOf (o.map jsToLower) ((normalizeText o).map jsToLower), ?_⟩
  rw [findAllState]
  rw [show min 15 (splitSp (normalizeText o)).length
      = (splitSp (normalizeText o)).length by omega]
  rw [windowSizes_cons h4, List.foldl_cons]
  have hqn : ((splitSp (normalizeText o)).length : ℚ) ≠ 0 := by
    have h := length_splitSp_pos (normalizeText o)
    exact_mod_cast (by omega : (splitSp (normalizeText o)).length ≠ 0)
  have hstep : scanStep o (normalizeText o) (splitSp (normalizeText o))
      (splitSp (normalizeText o)) (splitSp (normalizeText o)).length
      { «matches» := [], covered := [] }
      = { «matches» := [Match.mk 100
            (if 0 ≤ jsIndexOf (o.map jsToLower) ((normalizeText o).map jsToLower)
             then (o.drop (jsIndexOf (o.map jsToLower)
                ((normalizeText o).map jsToLower)).toNat).take
                ((normalizeText o).length + 20)
             else normalizeText o)
            (jsIndexOf (o.map jsToLower) ((normalizeText o).map jsToLower)) 0],
          covered := [Range.mk 0 ((splitSp (normalizeText o)).length - 1)] } := by
    rw [scanStep, show (splitSp (normalizeText o)).length + 1
        - (splitSp (normalizeText o)).length = 1 by omega]
    rw [show List.range 1 = [0] from rfl, List.foldl_cons, List.foldl_nil]
    rw [processCandidate, if_neg (by rw [coveredContains_nil]; simp)]
    simp only []
    rw [show ((splitSp (normalizeText o)).drop 0).take
        (splitSp (normalizeText o)).length = splitSp (normalizeText o) by
      rw [List.drop_zero, List.take_length]]
    rw [joinSp_splitSp, jsIndexOf_self]
    rw [if_pos (le_refl (0 : Int))]
    rw [show (0 : Int).toNat + (normalizeText o).length
        = (normalizeText o).length by omega]
    rw [show (0 : Nat) + (splitSp (normalizeText o)).length
        = (splitSp (normalizeText o)).length by omega]
    rw [extendLoop_at_end]
    simp only []
    rw [show (((splitSp (normalizeText o)).length : ℚ)
        / ((splitSp (normalizeText o)).length : ℚ)) * 100 = 100 by
      rw [div_self hqn, one_mul]]
    rw [if_pos (by norm_num : (5 : ℚ) < 100)]
    simp only [List.nil_append]
    rfl
  rw [hstep]
  refine foldl_fixed _ _ _ ?_
  intro ws hws
  obtain ⟨hw4, hwle⟩ := mem_windowSizes hws
  refine scanStep_all_covered _ _ _ _ ws (by omega) _ ?_
  intro i hi
  simp only [coveredContains, List.any_cons, List.any_nil, Bool.or_false]
  have h0 : (0 : Nat) ≤ i := Nat.zero_le i
  have h1 : i ≤ (splitSp (normalizeText o)).length - 1 := by omega
  simp [h0, h1]

theorem findAllSimilarities_self (o : List Char)
    (h4 : 4 ≤ wordCount o) (h15 : wordCount o ≤ 15) :
    (findAllSimilarities o o).overallSimilarity = 100 ∧
    ∃ m ∈ (findAllSimilarities o o).«matches», m.similarity = 100 := by
  simp only [wordCount] at h4 h15
  obtain ⟨mt, oi, hst⟩ := findAllState_self o h4 h15
  rw [findAllSimilarities, hst]
  have hqn : ((splitSp (normalizeText o)).length : ℚ) ≠ 0 := by
    exact_mod_cast (by omega : (splitSp (normalizeText o)).length ≠ 0)
  constructor
  · simp only [totalCoverage, List.foldl_cons, List.foldl_nil]
    have hz : ((0 : ℤ) + ((((splitSp (normalizeText o)).length - 1 : ℕ) : ℤ)
        - ((0 : ℕ) : ℤ) + 1)) = ((splitSp (normalizeText o)).length : ℤ) := by
      omega
    rw [hz]
    push_cast
    rw [div_self hqn, one_mul]
    simp
  · refine ⟨Match.mk 100 mt oi 0, ?_, rfl⟩
    simp [mem_sortByDesc]

theorem findAllState_empty_original (s : List Char) :
    findAllState [] s = { «matches» := [], covered := [] } := by
  rw [findAllState]
  rw [show normalizeText [] = [] from rfl]
  rw [show min 15 (splitSp ([] : List Char)).length = 1 from rfl]
  rw [show windowSizes 1 = [] from rfl]
  rfl

theorem findAllState_short_original (o s : List Char)
    (h : wordCount o < 4) :
    findAllState o s = { «matches» := [], covered := [] } := by
  simp only [wordCount] at h
  rw [findAllState]
  rw [windowSizes_eq_nil (by omega : min 15 (splitSp (normalizeText o)).length < 4)]
  rfl

theorem findAllState_empty_source (o : List Char) :
    findAllState o [] = { «matches» := [], covered := [] } := by
  rw [findAllState]
  rw [show normalizeText [] = [] from rfl]
  refine foldl_fixed _ _ _ ?_
  intro ws hws
  obtain ⟨hw4, _⟩ := mem_windowSizes hws
  exact scanStep_empty_source o _ _ ws (by omega) _

theorem findAllSimilarities_of_state_nil (o s : List Char)
    (h : findAllState o s = { «matches» := [], covered := [] }) :
    findAllSimilarities o s = { overallSimilarity := 0, «matches» := [] } := by
  rw [findAllSimilarities, h]
  simp only [totalCoverage, List.foldl_nil, sortByDesc]
  norm_num

/-! Claim theorems. -/

set_option maxRecDepth 1000000 in
/-- C1 counterexample: the claim says the CoveredRanges finalized in one
run of `findAllSimilarities` are pairwise non-overlapping.  On original
text `"x y a b c d e f"` against source `"a b c d e f q x y a b"`, the
windowSize-6 pass records the range `[2,7]` (for `"a b c d e f"`), and
the windowSize-4 pass then records `[0,3]` (for `"x y a b"`, found later
in the source): start index 0 is outside `[2,7]`, so the skip test —
which checks only the start index — does not fire, and token indices 2
and 3 end up inside both recorded ranges. -/
theorem C1_counterexample :
    ¬ List.Pairwise (fun r₁ r₂ => rangesOverlap r₁ r₂ = false)
      (findAllState "x y a b c d e f".toList
        "a b c d e f q x y a b".toList).covered := by
  with_unfolding_all decide

/-- C1 (amended): within one run of `findAllSimilarities`, the START
index of every finalized CoveredRange lies outside every
previously-finalized CoveredRange (the invariant the skip test actually
enforces); ranges may still overlap beyond their start indices. -/
theorem C1_start_outside_earlier_ranges (originalText sourceText : List Char) :
    List.Pairwise startNotIn (findAllState originalText sourceText).covered :=
  (stInv_findAllState originalText sourceText).1

set_option maxRecDepth 1000000 in
/-- C2: evaluation at the failing input (sixteen distinct words compared
with themselves).  After the windowSize-15 phrase is found at source
offset 0, original token 15 (`"p"`) equals source token 15 (`"p"`) and
neither token sequence is exhausted, so the claimed extension rule would
extend the match to cover tokens 0-15.  The code instead compares
`originalWords[15]` with `sourceWords[29]` — `sourceEnd` is the CHARACTER
offset past the phrase, reused as a token index — which is undefined
(the source has only 16 tokens), so extension stops and only `[0,14]` is
covered. -/
theorem C2_extension_stops_despite_equal_tokens :
    (findAllState sixteenWords sixteenWords).covered = [Range.mk 0 14] ∧
    (splitSp (normalizeText sixteenWords))[15]? = some "p".toList ∧
    (splitSp (normalizeText sixteenWords))[29]? = none ∧
    (splitSp (normalizeText sixteenWords)).length = 16 ∧
    (normalizeText sixteenWords).length = 31 := by
  with_unfolding_all decide

set_option maxRecDepth 1000000 in
/-- C3 counterexample: the claim says a candidate window is skipped
whenever `[i, i+windowSize-1]` INTERSECTS a finalized CoveredRange.  On
original `"u v a b c d e f"` against source `"a b c d e f q u v a b"`,
after `[2,7]` is finalized, the windowSize-4 candidate at `i = 0` (window
`[0,3]`, which intersects `[2,7]` at tokens 2 and 3) is still searched
and recorded, because the code only tests whether the start index `i`
lies inside a finalized range. -/
theorem C3_counterexample :
    (findAllState "u v a b c d e f".toList
      "a b c d e f q u v a b".toList).covered
      = [Range.mk 2 7, Range.mk 0 3] ∧
    rangesOverlap (Range.mk 2 7) (Range.mk 0 3) = true := by
  with_unfolding_all decide

/-- C3 (amended): a candidate window starting at `i` is skipped (the
state is returned unchanged) whenever its START index `i` lies inside an
already-finalized CoveredRange; intersection of the rest of the window
with finalized coverage does not cause a skip (see the counterexample). -/
theorem C3_skip_exactly_on_covered_start (originalText normalizedSource : List Char)
    (originalWords sourceWords : List (List Char)) (windowSize i : Nat)
    (st : MatchState) (h : coveredContains st.covered i = true) :
    processCandidate originalText normalizedSource originalWords sourceWords
      windowSize i st = st :=
  processCandidate_skip originalText normalizedSource originalWords
    sourceWords windowSize i st h

/-- C3 witness: a concrete skipped candidate. -/
theorem C3_skip_witness :
    coveredContains [Range.mk 0 5] 3 = true ∧
    processCandidate [] [] [] [] 4 3
      { «matches» := [], covered := [Range.mk 0 5] }
      = { «matches» := [], covered := [Range.mk 0 5] } := by
  refine ⟨by decide, ?_⟩
  exact C3_skip_exactly_on_covered_start [] [] [] [] 4 3
    { «matches» := [], covered := [Range.mk 0 5] } (by decide)

set_option maxRecDepth 1000000 in
/-- C4 counterexample: the claim says any verbatim duplicate yields
`overallSimilarity ≥ 95` and a full-document match.  For the three-token
text `"alpha beta gamma"` compared with itself, `min(15, 3) = 3 < 4`, the
window loop never runs, and the result is `overallSimilarity = 0` with no
matches. -/
theorem C4_counterexample :
    (findAllSimilarities "alpha beta gamma".toList
      "alpha beta gamma".toList).overallSimilarity < 95 ∧
    (findAllSimilarities "alpha beta gamma".toList
      "alpha beta gamma".toList).«matches» = [] := by
  with_unfolding_all decide

/-- C4 (amended): if `sourceText` equals `originalText` verbatim and the
normalized original has at least 4 and at most 15 tokens, then
`findAllSimilarities` returns `overallSimilarity = 100` (hence ≥ 95) and
a match with similarity 100, i.e. one covering the full document. -/
theorem C4_exact_duplicate_amended (originalText : List Char)
    (h4 : 4 ≤ wordCount originalText) (h15 : wordCount originalText ≤ 15) :
    95 ≤ (findAllSimilarities originalText originalText).overallSimilarity ∧
    (findAllSimilarities originalText originalText).overallSimilarity = 100 ∧
    ∃ m ∈ (findAllSimilarities originalText originalText).«matches»,
      m.similarity = 100 := by
  obtain ⟨h1, h2⟩ := findAllSimilarities_self originalText h4 h15
  exact ⟨by rw [h1]; norm_num, h1, h2⟩

set_option maxRecDepth 1000000 in
/-- C4 witness: a four-token exact duplicate. -/
theorem C4_witness :
    4 ≤ wordCount "one two three four".toList ∧
    wordCount "one two three four".toList ≤ 15 ∧
    95 ≤ (findAllSimilarities "one two three four".toList
      "one two three four".toList).overallSimilarity := by
  refine ⟨?_, ?_, ?_⟩
  · with_unfolding_all decide
  · with_unfolding_all decide
  · exact (C4_exact_duplicate_amended "one two three four".toList
      (by with_unfolding_all decide) (by with_unfolding_all decide)).1

/-- C5: `calculateOverallSimilarity` returns 0 on the empty list and
otherwise `min(sqrt(sum(similarity) × min(count, 5)) × 0.8, 100)`; for
five matches of similarity 20 it returns `min(sqrt(500) × 0.8, 100)
= sqrt(500) × 0.8 ≈ 17.9` (proved here to lie strictly between 17.8
and 18). -/
theorem C5_calculateOverallSimilarity_formula :
    (∀ r : ℝ, calculateOverallSimilarity [] r → r = 0) ∧
    (∀ (ms : List PlagiarismMatch) (r : ℝ), ms ≠ [] →
      calculateOverallSimilarity ms r →
      r = min (Real.sqrt ((sumSimilarity ms : ℝ) *
        ((min ms.length 5 : ℕ) : ℝ)) * 0.8) 100) ∧
    (∀ r : ℝ, calculateOverallSimilarity (List.replicate 5 pm20) r →
      r = min (Real.sqrt ((100 : ℝ) * 5) * 0.8) 100 ∧
      r = Real.sqrt 500 * 0.8 ∧ (17.8 : ℝ) < r ∧ r < 18) := by
  have hs := Real.sq_sqrt (show (0 : ℝ) ≤ 500 by norm_num)
  have hnn := Real.sqrt_nonneg (500 : ℝ)
  have hub : Real.sqrt 500 < 22.4 := by nlinarith [hs, hnn]
  have hlb : (22.3 : ℝ) < Real.sqrt 500 := by nlinarith [hs, hnn]
  refine ⟨?_, ?_, ?_⟩
  · intro r h
    rw [calculateOverallSimilarity] at h
    simpa using h
  · intro ms r hne h
    rw [calculateOverallSimilarity,
      if_neg (by simpa [List.length_eq_zero] using hne)] at h
    exact h
  · intro r h
    rw [calculateOverallSimilarity, if_neg (by simp)] at h
    have hsum : sumSimilarity (List.replicate 5 pm20) = 100 := by
      with_unfolding_all decide
    rw [hsum] at h
    have hform : r = min (Real.sqrt ((100 : ℝ) * 5) * 0.8) 100 := by
      rw [h]
      norm_num
    have h500 : ((100 : ℝ) * 5) = 500 := by norm_num
    have hmin : min (Real.sqrt ((100 : ℝ) * 5) * 0.8) 100
        = Real.sqrt 500 * 0.8 := by
      rw [h500]
      exact min_eq_left (by nlinarith [hub, hnn])
    refine ⟨hform, by rw [hform, hmin], ?_, ?_⟩
    · rw [hform, hmin]; nlinarith [hlb]
    · rw [hform, hmin]; nlinarith [hub, hnn]

/-- C5 witness: the concrete five-match scenario. -/
theorem C5_witness :
    ∃ r : ℝ, calculateOverallSimilarity (List.replicate 5 pm20) r ∧
      (17.8 : ℝ) < r ∧ r < 18 := by
  refine ⟨min (Real.sqrt ((sumSimilarity (List.replicate 5 pm20) : ℝ) *
    ((min (List.replicate 5 pm20).length 5 : ℕ) : ℝ)) * 0.8) 100, ?_, ?_⟩
  · rw [calculateOverallSimilarity, if_neg (by simp)]
  · have h := C5_calculateOverallSimilarity_formula.2.2 _ (by
      rw [calculateOverallSimilarity, if_neg (by simp)])
    exact ⟨h.2.2.1, h.2.2.2⟩

/-- C6 counterexample: the claim says the normalizer removes every
character that is not alphanumeric or whitespace, but the code's
character class is the regex `\w`, which also keeps underscore: `"a_b"`
normalizes to `"a_b"`, while the normalizer described by the claim
(`specNormalizeClaimed`) yields `"ab"`. -/
theorem C6_counterexample :
    normalizeText "a_b".toList = "a_b".toList ∧
    specNormalizeClaimed "a_b".toList = "ab".toList ∧
    normalizeText "a_b".toList ≠ specNormalizeClaimed "a_b".toList := by
  refine ⟨by decide, by decide, by decide⟩

/-- C6 (amended): for every input the normalizer lowercases, removes
every character that is not alphanumeric, underscore, or whitespace,
collapses each whitespace run to a single space, and trims — stated as
equality with the independent word-based rendering `specNormalizeAmended`
(split on whitespace, filter each word by `\w`, drop emptied words,
re-join); the function is total over `List Char` by construction. -/
theorem C6_normalizer_amended (x : List Char) :
    normalizeText x = specNormalizeAmended x := by
  unfold specNormalizeAmended
  exact normalizeText_eq_words x

/-- C7: `findAllSimilarities("", s)` and `findAllSimilarities(s, "")`
return overallSimilarity 0 with no matches, and in general whenever
`min(15, |O|) < 4` the window loop never runs and the result is
overallSimilarity 0 with no matches. -/
theorem C7_empty_and_short_inputs :
    (∀ s, findAllSimilarities [] s
      = { overallSimilarity := 0, «matches» := [] }) ∧
    (∀ o, findAllSimilarities o []
      = { overallSimilarity := 0, «matches» := [] }) ∧
    (∀ o s, min 15 (wordCount o) < 4 →
      findAllSimilarities o s
        = { overallSimilarity := 0, «matches» := [] }) := by
  refine ⟨?_, ?_, ?_⟩
  · intro s
    exact findAllSimilarities_of_state_nil [] s (findAllState_empty_original s)
  · intro o
    exact findAllSimilarities_of_state_nil o [] (findAllState_empty_source o)
  · intro o s h
    exact findAllSimilarities_of_state_nil o s
      (findAllState_short_original o s (by omega))

/-- C7 witness: a two-token original against an arbitrary source. -/
theorem C7_witness :
    min 15 (wordCount "hi there".toList) < 4 ∧
    findAllSimilarities "hi there".toList "hi there friend".toList
      = { overallSimilarity := 0, «matches» := [] } := by
  refine ⟨by decide, ?_⟩
  exact C7_empty_and_short_inputs.2.2 _ _ (by decide)

/-- C8: every score the system produces lies in [0,100]: the
overallSimilarity of `findAllSimilarities`, the similarity of every
match it returns, and the value of `calculateOverallSimilarity` on any
list of matches with nonnegative similarities (as the system produces). -/
theorem C8_scores_clamped :
    (∀ o s, 0 ≤ (findAllSimilarities o s).overallSimilarity ∧
      (findAllSimilarities o s).overallSimilarity ≤ 100) ∧
    (∀ o s, ∀ m ∈ (findAllSimilarities o s).«matches»,
      0 ≤ m.similarity ∧ m.similarity ≤ 100) ∧
    (∀ (ms : List PlagiarismMatch) (r : ℝ),
      (∀ m ∈ ms, 0 ≤ m.similarity) → calculateOverallSimilarity ms r →
      0 ≤ r ∧ r ≤ 100) := by
  refine ⟨?_, ?_, ?_⟩
  · intro o s
    obtain ⟨_, hwf, _⟩ := stInv_findAllState o s
    have htc : 0 ≤ totalCoverage (findAllState o s).covered :=
      totalCoverage_nonneg _ hwf
    rw [findAllSimilarities]
    constructor
    · refine le_min ?_ (by norm_num)
      have h1 : (0 : ℚ) ≤ (totalCoverage (findAllState o s).covered : ℚ) := by
        exact_mod_cast htc
      positivity
    · exact min_le_right _ _
  · intro o s m hm
    obtain ⟨_, _, hsim⟩ := stInv_findAllState o s
    have hm' : m ∈ (findAllState o s).«matches» := by
      have : (findAllSimilarities o s).«matches»
          = sortByDesc (findAllState o s).«matches» := rfl
      rw [this, mem_sortByDesc] at hm
      exact hm
    exact hsim m hm'
  · intro ms r hpos h
    rw [calculateOverallSimilarity] at h
    by_cases hlen : ms.length = 0
    · rw [if_pos hlen] at h
      rw [h]
      norm_num
    · rw [if_neg hlen] at h
      rw [h]
      constructor
      · refine le_min ?_ (by norm_num)
        have := Real.sqrt_nonneg ((sumSimilarity ms : ℝ) *
          ((min ms.length 5 : ℕ) : ℝ))
        nlinarith
      · exact min_le_right _ _

set_option maxRecDepth 1000000 in
/-- C8 witness: concrete instances of all three clamping facts. -/
theorem C8_witness :
    (0 ≤ (findAllSimilarities "aa bb cc dd".toList
        "aa bb cc dd".toList).overallSimilarity ∧
      (findAllSimilarities "aa bb cc dd".toList
        "aa bb cc dd".toList).overallSimilarity ≤ 100) ∧
    (0 ≤ (Match.mk 100 "aa bb cc dd".toList 0 0).similarity ∧
      (Match.mk 100 "aa bb cc dd".toList 0 0).similarity ≤ 100) ∧
    (∃ r : ℝ, calculateOverallSimilarity [pm20] r ∧ 0 ≤ r ∧ r ≤ 100) := by
  refine ⟨C8_scores_clamped.1 _ _, ?_, ?_⟩
  · refine C8_scores_clamped.2.1 "aa bb cc dd".toList "aa bb cc dd".toList
      (Match.mk 100 "aa bb cc dd".toList 0 0) ?_
    with_unfolding_all decide
  · refine ⟨min (Real.sqrt ((sumSimilarity [pm20] : ℝ) *
      ((min (List.length [pm20]) 5 : ℕ) : ℝ)) * 0.8) 100, ?_, ?_⟩
    · rw [calculateOverallSimilarity, if_neg (by simp)]
    · refine C8_scores_clamped.2.2 [pm20] _ ?_ ?_
      · intro m hm
        rcases List.mem_singleton.mp hm with rfl
        rw [show pm20.similarity = 20 from rfl]
        norm_num
      · rw [calculateOverallSimilarity, if_neg (by simp)]

/-- C9: normalization is idempotent: applying `normalizeText` to its own
output returns the same string, and hence the same token sequence. -/
theorem C9_normalization_idempotent (x : List Char) :
    normalizeText (normalizeText x) = normalizeText x ∧
    splitSp (normalizeText (normalizeText x)) = splitSp (normalizeText x) := by
  have h := normalizeText_idem x
  exact ⟨h, by rw [h]⟩

/-- C10: the legacy `findSimilarities` is a pure wrapper over
`findAllSimilarities`: its similarity is the overallSimilarity, and its
matchedText is the matchedText of the first match — which has maximal
similarity among all returned matches — or the empty string when there
are none. -/
theorem C10_findSimilarities_wrapper (o s : List Char) :
    (findSimilarities o s).similarity
      = (findAllSimilarities o s).overallSimilarity ∧
    ((findAllSimilarities o s).«matches» = [] →
      (findSimilarities o s).matchedText = []) ∧
    (∀ m₀ rest, (findAllSimilarities o s).«matches» = m₀ :: rest →
      (findSimilarities o s).matchedText = m₀.matchedText ∧
      ∀ m ∈ (findAllSimilarities o s).«matches»,
        m.similarity ≤ m₀.similarity) := by
  refine ⟨rfl, ?_, ?_⟩
  · intro h
    rw [findSimilarities]
    simp only [h]
  · intro m₀ rest h
    constructor
    · rw [findSimilarities]
      simp only [h]
    · intro m hm
      have hsorted : List.Pairwise (fun a b => b.similarity ≤ a.similarity)
          ((findAllSimilarities o s).«matches») := by
        have : (findAllSimilarities o s).«matches»
            = sortByDesc (findAllState o s).«matches» := rfl
        rw [this]
        exact pairwise_sortByDesc _
      rw [h] at hsorted hm
      rcases List.mem_cons.mp hm with h1 | h2
      · rw [h1]
      · exact (List.pairwise_cons.mp hsorted).1 m h2

set_option maxRecDepth 1000000 in
/-- C10 witness: a concrete run with one match. -/
theorem C10_witness :
    (findSimilarities "red green blue teal".toList
      "red green blue teal".toList).matchedText
      = "red green blue teal".toList ∧
    ∀ m ∈ (findAllSimilarities "red green blue teal".toList
      "red green blue teal".toList).«matches», m.similarity ≤ 100 := by
  have h := (C10_findSimilarities_wrapper "red green blue teal".toList
    "red green blue teal".toList).2.2
    (Match.mk 100 "red green blue teal".toList 0 0) []
    (by with_unfolding_all decide)
  refine ⟨h.1, ?_⟩
  intro m hm
  exact h.2 m hm

end PlagiarismCheck

